import Mathlib

/-!
Verification of the `@ultranomic/hook` registry (TypeScript).

Embedding notes.  The source keeps a nested mutable map
`hooks : Map<string, Map<number, Action[]>>` per registry instance, an
optional logger slot, and three views on it:

* `getActionsBatch(hookName)` — sorts the inner map's entries ascending by
  numeric order key and returns the list of the stored action *arrays*
  (the very array objects held by the map, not copies);
* `register(hookName, action, order = 0)` — pushes the action at the end of
  the array for `order`, creating the inner map and/or the array as needed;
* `clear()` — empties the outer map;
* `setLogger` / `getLogger` — write/read the logger slot.

JavaScript arrays are mutable objects referenced from the map, so we model a
heap: `heap : List (List Action)` indexed by `Nat` playing the role of array
object identity, and the maps store heap indices.  JavaScript `Map`s preserve
insertion order and have pairwise-distinct keys; we model them as association
lists together with the well-formedness invariant `WF`.

Order keys are JavaScript numbers; the claims only exercise finite numeric
values (integers and decimals such as 1.5), which we model by `ℚ`.
`toSorted(([a],[b]) => a - b)` is a stable ascending sort by the key; on the
distinct keys of a `Map` it produces the unique ascending arrangement, which
`List.insertionSort` by `≤` on the key also produces.

Actions are opaque callables with a diagnostic `.name` (the empty string when
anonymous); for firing semantics an action is its name together with its
observable effect on a payload: either success or a thrown/rejected value
(`run : π → Option ε`, `some e` meaning the action fails with `e`).
`fire` is modelled as a function from the registry state and payload to the
emitted log lines, the list of invoked actions in invocation order, and the
outcome (`none` = completed, `some e` = the value re-raised to the caller).
Log lines are tagged with the logger (sink) value they were sent to, so that
logger-swap behaviour is observable.
-/

namespace HookVerif

/-- An action: diagnostic name (`""` when the callable is anonymous) and its
observable behaviour on a payload (`none` = returns normally, `some e` = the
call throws/rejects with `e`). -/
structure Action (π ε : Type) where
  name : String
  run : π → Option ε

/-- The structured payload `{ error }` passed to `logger.error`. -/
structure ErrPayload (ε : Type) where
  error : ε
  deriving DecidableEq, Repr

/-- One log line emitted through the logger capability: either a
`debug(message)` call or an `error({error}, message)` call. -/
inductive LogLine (ε : Type) where
  | debug (message : String)
  | error (payload : ErrPayload ε) (message : String)
  deriving DecidableEq, Repr

/-- State of one registry instance: the heap of action arrays (indices model
JavaScript array object identity), the outer map `hookName ↦ (order ↦ array
reference)` in insertion order, and the logger slot (`Λ` is the type of
logger sinks). -/
structure Registry (π ε Λ : Type) where
  heap : List (List (Action π ε))
  hooks : List (String × List (ℚ × Nat))
  logger : Option Λ

variable {π ε Λ : Type}

/-- Model of `Map.get` on an insertion-ordered map modelled as an association list. -/
def alookup {α : Type} [DecidableEq α] {β : Type} (k : α) : List (α × β) → Option β
  | [] => none
  | (a, b) :: rest => if a = k then some b else alookup k rest

/-- Model of `Map.set`: replace in place when the key is present, append otherwise. -/
def aset {α : Type} [DecidableEq α] {β : Type} (k : α) (v : β) : List (α × β) → List (α × β)
  | [] => [(k, v)]
  | (a, b) :: rest => if a = k then (k, v) :: rest else (a, b) :: aset k v rest

/-- Model of `createBaseHooks(options)`: fresh registry with empty store and the
optionally supplied logger. -/
def createBaseHooks (l : Option Λ) : Registry π ε Λ :=
  { heap := [], hooks := [], logger := l }

/-- The inner map stored under a hook name (`[]` when the name is unknown). -/
def hookEntries (s : Registry π ε Λ) (h : String) : List (ℚ × Nat) :=
  match alookup h s.hooks with
  | none => []
  | some m => m

/-- The `toSorted(([orderA],[orderB]) => orderA - orderB)` step: stable
ascending sort of the inner map's entries by numeric order key. -/
def sortEntries (m : List (ℚ × Nat)) : List (ℚ × Nat) :=
  List.insertionSort (fun x y => x.1 ≤ y.1) m

/-- The hook's entries sorted ascending by order key. -/
def batchEntries (s : Registry π ε Λ) (h : String) : List (ℚ × Nat) :=
  sortEntries (hookEntries s h)

/-- Dereference one array reference (out-of-range indices never occur on
well-formed states). -/
def deref (s : Registry π ε Λ) (r : Nat) : List (Action π ε) :=
  s.heap.getD r []

/-- Model of `getActionsBatch(hookName)` at the reference level: the list of array
references it returns, sorted ascending by order key.  The source returns the
stored arrays themselves, so the result aliases the store. -/
def getActionsBatchRefs (s : Registry π ε Λ) (h : String) : List Nat :=
  (batchEntries s h).map Prod.snd

/-- Model of `getActionsBatch(hookName)` at the value level: the contents of the
returned arrays, i.e. one action sequence per distinct order key, ascending
by order key. -/
def getActionsBatch (s : Registry π ε Λ) (h : String) : List (List (Action π ε)) :=
  (getActionsBatchRefs s h).map (deref s)

/-- The action sequence currently registered under hook `h` and order key
`o` (`[]` when absent). -/
def actionsAt (s : Registry π ε Λ) (h : String) (o : ℚ) : List (Action π ε) :=
  match alookup h s.hooks with
  | none => []
  | some m =>
    match alookup o m with
    | none => []
    | some r => deref s r

/-- Model of `register(hookName, action, order = 0)`. -/
def register (s : Registry π ε Λ) (h : String) (a : Action π ε) (o : ℚ := 0) :
    Registry π ε Λ :=
  match alookup h s.hooks with
  | none =>
    { s with
      heap := s.heap ++ [[a]]
      hooks := s.hooks ++ [(h, [(o, s.heap.length)])] }
  | some m =>
    match alookup o m with
    | some r =>
      { s with heap := s.heap.set r (s.heap.getD r [] ++ [a]) }
    | none =>
      { s with
        heap := s.heap ++ [[a]]
        hooks := aset h (m ++ [(o, s.heap.length)]) s.hooks }

/-- Model of `clear()`: empties the outer map (the arrays become unreachable but are
not themselves destroyed, as in the source). -/
def clear (s : Registry π ε Λ) : Registry π ε Λ :=
  { s with hooks := [] }

/-- Model of `setLogger(newLogger)`. -/
def setLogger (s : Registry π ε Λ) (l : Option Λ) : Registry π ε Λ :=
  { s with logger := l }

/-- Model of `getLogger()`. -/
def getLogger (s : Registry π ε Λ) : Option Λ :=
  s.logger

/-- Model of `action.name || 'anonymous'`: the diagnostic name with the fallback for
anonymous (empty-named) callables. -/
def fallbackName (a : Action π ε) : String :=
  if a.name = "" then "anonymous" else a.name

/-- Model of `actions.map(a => a.name || 'anonymous').join(', ')`. -/
def joinedNames (batch : List (Action π ε)) : String :=
  String.intercalate ", " (batch.map fallbackName)

/-- Emit a line through the optional logger: `logger?.debug(...)` /
`logger?.error(...)` is a no-op when no logger is configured. -/
def emit (lg : Option Λ) (line : LogLine ε) : List (Λ × LogLine ε) :=
  match lg with
  | none => []
  | some l => [(l, line)]

/-- The debug line `Fired hook {hookName} with actions: {joined names}`. -/
def debugMsg (h : String) (batch : List (Action π ε)) : String :=
  "Fired hook " ++ h ++ " with actions: " ++ joinedNames batch

/-- The error message `Hook action '{name}' for '{hookName}' failed`. -/
def errorMsg (name h : String) : String :=
  "Hook action \x27" ++ name ++ "\x27 for \x27" ++ h ++ "\x27 failed"

/-- Result of one `fire` call: the log lines emitted (each tagged with the
sink that received it), the actions invoked in invocation order, and the
outcome (`none` = completed normally, `some e` = `e` reached the caller). -/
structure FireResult (π ε Λ : Type) where
  logs : List (Λ × LogLine ε)
  invoked : List (Action π ε)
  outcome : Option ε

/-- The inner `for (const action of actions)` loop of the synchronous `fire`:
run the batch's actions sequentially, stopping at the first throw; returns
the invoked actions and, on failure, the failing action with its error. -/
def runBatchSync (p : π) : List (Action π ε) → List (Action π ε) × Option (Action π ε × ε)
  | [] => ([], none)
  | a :: rest =>
    match a.run p with
    | some e => ([a], some (a, e))
    | none =>
      let tail := runBatchSync p rest
      (a :: tail.1, tail.2)

/-- The batch loop of the synchronous `fire` over an already-retrieved,
order-sorted list of batches. -/
def fireSyncBatches (lg : Option Λ) (h : String) (p : π) :
    List (List (Action π ε)) → FireResult π ε Λ
  | [] => { logs := [], invoked := [], outcome := none }
  | batch :: rest =>
    let dbg := emit lg (LogLine.debug (debugMsg h batch))
    match runBatchSync p batch with
    | (inv, some (a, e)) =>
      { logs := dbg ++ emit lg (LogLine.error ⟨e⟩ (errorMsg (fallbackName a) h))
        invoked := inv
        outcome := some e }
    | (inv, none) =>
      let res := fireSyncBatches lg h p rest
      { logs := dbg ++ res.logs, invoked := inv ++ res.invoked, outcome := res.outcome }

/-- Model of `createSyncHooks(...).fire(hookName, ...payload)`. -/
def fireSync (s : Registry π ε Λ) (h : String) (p : π) : FireResult π ε Λ :=
  fireSyncBatches s.logger h p (getActionsBatch s h)

/-- Model of `await Promise.all(actions.map(action => Promise.try(action, ...payload)))`:
every action of the batch is started; with immediately-settling actions the
join rejects with the first failure in start (registration) order, or
resolves when none fails. -/
def runBatchAsync (p : π) (batch : List (Action π ε)) : Option ε :=
  (batch.filterMap (fun a => a.run p)).head?

/-- The batch loop of the asynchronous `fire`.  On a batch failure the error
line joins the names of all of the batch's actions (as the source does). -/
def fireAsyncBatches (lg : Option Λ) (h : String) (p : π) :
    List (List (Action π ε)) → FireResult π ε Λ
  | [] => { logs := [], invoked := [], outcome := none }
  | batch :: rest =>
    let dbg := emit lg (LogLine.debug (debugMsg h batch))
    match runBatchAsync p batch with
    | some e =>
      { logs := dbg ++ emit lg (LogLine.error ⟨e⟩ (errorMsg (joinedNames batch) h))
        invoked := batch
        outcome := some e }
    | none =>
      let res := fireAsyncBatches lg h p rest
      { logs := dbg ++ res.logs, invoked := batch ++ res.invoked, outcome := res.outcome }

/-- Model of `createAsyncHooks(...).fire(hookName, ...payload)`. -/
def fireAsync (s : Registry π ε Λ) (h : String) (p : π) : FireResult π ε Λ :=
  fireAsyncBatches s.logger h p (getActionsBatch s h)

/-- All array references held anywhere in the store. -/
def allRefs (s : Registry π ε Λ) : List Nat :=
  (s.hooks.map (fun q => q.2.map Prod.snd)).flatten

/-- Well-formedness: the model of the nested `Map`s.  Outer keys are
pairwise distinct, each inner map's keys are pairwise distinct, and the
array references are pairwise distinct valid heap indices (each stored
array is one object, referenced from exactly one map slot). -/
structure WF (s : Registry π ε Λ) : Prop where
  hooksNodup : (s.hooks.map Prod.fst).Nodup
  keysNodup : ∀ q ∈ s.hooks, (q.2.map Prod.fst).Nodup
  refsNodup : (allRefs s).Nodup
  refsBound : ∀ r ∈ allRefs s, r < s.heap.length

/-- The comparison used by `toSorted`: ascending by order key. -/
def keyLE (x y : ℚ × Nat) : Prop := x.1 ≤ y.1

instance : DecidableRel keyLE := fun x y => inferInstanceAs (Decidable (x.1 ≤ y.1))

instance : IsTotal (ℚ × Nat) keyLE := ⟨fun x y => le_total x.1 y.1⟩

instance : IsTrans (ℚ × Nat) keyLE := ⟨fun _ _ _ h₁ h₂ => le_trans h₁ h₂⟩

/-! ### A small command semantics, to observe the output journal -/

/-- One registry API call. -/
inductive Cmd (π ε Λ : Type) where
  | reg (h : String) (a : Action π ε) (o : ℚ)
  | fireS (h : String) (p : π)
  | fireA (h : String) (p : π)
  | setL (l : Option Λ)
  | clr

/-- Execute one call: the new state and the log lines it emits.  `fire`
mutates nothing in the store; `register`/`clear`/`setLogger` emit nothing. -/
def step (s : Registry π ε Λ) : Cmd π ε Λ → Registry π ε Λ × List (Λ × LogLine ε)
  | Cmd.reg h a o => (register s h a o, [])
  | Cmd.fireS h p => (s, (fireSync s h p).logs)
  | Cmd.fireA h p => (s, (fireAsync s h p).logs)
  | Cmd.setL l => (setLogger s l, [])
  | Cmd.clr => (clear s, [])

/-- Run a call sequence, accumulating the emitted journal. -/
def runCmds (s : Registry π ε Λ) : List (Cmd π ε Λ) → Registry π ε Λ × List (Λ × LogLine ε)
  | [] => (s, [])
  | c :: cs =>
    ((runCmds (step s c).1 cs).1, (step s c).2 ++ (runCmds (step s c).1 cs).2)

def sEmpty : Registry Unit String Unit := createBaseHooks (some ())

/-- Is this log line an `error(...)` call? -/
def LogLine.isError : LogLine ε → Bool
  | LogLine.error _ _ => true
  | LogLine.debug _ => false

/-- A succeeding action with diagnostic name `n`. -/
def okA (n : String) : Action Unit String := { name := n, run := fun _ => none }

/-- An action that always throws/rejects with `msg`. -/
def failA (n msg : String) : Action Unit String := { name := n, run := fun _ => some msg }

/-- Spec scenario 1: A at order 1, B at order 0, C at order 2. -/
def sW : Registry Unit String Unit :=
  register (register (register (createBaseHooks (some ())) "h" (okA "A") 1) "h" (okA "B") 0) "h" (okA "C") 2

/-- Batches: `[A]` at order 0, `[B, bad]` at order 1, `[Z]` at order 2. -/
def sC2 : Registry Unit String Unit :=
  register (register (register (register (createBaseHooks (some ())) "h" (okA "A") 0) "h" (okA "B") 1) "h" (failA "bad" "boom") 1) "h" (okA "Z") 2

/-- One batch with a succeeding and a failing action. -/
def sC4 : Registry Unit String Unit :=
  register (register (createBaseHooks (some ())) "h" (okA "g") 0) "h" (failA "bad" "boom") 0

/-- Orders 1 and 2, ready to receive an action at order 3/2. -/
def s10 : Registry Unit String Unit :=
  register (register (createBaseHooks (some ())) "h" (okA "A") 1) "h" (okA "B") 2

/-! ### Association-list lemmas (the `Map` model) -/

section ALemmas

variable {α β : Type} [DecidableEq α]

theorem alookup_nil (k : α) : alookup k ([] : List (α × β)) = none := rfl

theorem alookup_cons (k a : α) (b : β) (l : List (α × β)) :
    alookup k ((a, b) :: l) = if a = k then some b else alookup k l := rfl

theorem alookup_none_iff {k : α} {l : List (α × β)} :
    alookup k l = none ↔ k ∉ l.map Prod.fst := by
  induction l with
  | nil => simp [alookup]
  | cons p rest ih =>
    obtain ⟨a, b⟩ := p
    by_cases hak : a = k <;> simp [alookup, hak, ih, Ne.symm]

theorem mem_of_alookup {k : α} {v : β} {l : List (α × β)} (h : alookup k l = some v) :
    (k, v) ∈ l := by
  induction l with
  | nil => simp [alookup] at h
  | cons p rest ih =>
    obtain ⟨a, b⟩ := p
    by_cases hak : a = k
    · subst hak
      simp [alookup] at h
      simp [h]
    · simp [alookup, hak] at h
      exact List.mem_cons_of_mem _ (ih h)

theorem alookup_append (k : α) (l₁ l₂ : List (α × β)) :
    alookup k (l₁ ++ l₂) =
      match alookup k l₁ with
      | some v => some v
      | none => alookup k l₂ := by
  induction l₁ with
  | nil => simp [alookup]
  | cons p rest ih =>
    obtain ⟨a, b⟩ := p
    by_cases hak : a = k <;> simp [alookup, hak, ih]

theorem alookup_aset_self (k : α) (v : β) (l : List (α × β)) :
    alookup k (aset k v l) = some v := by
  induction l with
  | nil => simp [aset, alookup]
  | cons p rest ih =>
    obtain ⟨a, b⟩ := p
    by_cases hak : a = k <;> simp [aset, alookup, hak, ih]

theorem alookup_aset_ne {k k' : α} (hne : k ≠ k') (v : β) (l : List (α × β)) :
    alookup k' (aset k v l) = alookup k' l := by
  induction l with
  | nil => simp [aset, alookup, hne]
  | cons p rest ih =>
    obtain ⟨a, b⟩ := p
    by_cases hak : a = k
    · subst hak
      simp [aset, alookup, hne]
    · simp [aset, alookup, hak, ih]

/-- Setting a present key rewrites the association list in place. -/
theorem aset_decomp {k : α} {v₀ : β} {l : List (α × β)} (h : alookup k l = some v₀)
    (v : β) :
    ∃ l₁ l₂, l = l₁ ++ (k, v₀) :: l₂ ∧ (∀ p ∈ l₁, p.1 ≠ k) ∧
      aset k v l = l₁ ++ (k, v) :: l₂ := by
  induction l with
  | nil => simp [alookup] at h
  | cons p rest ih =>
    obtain ⟨a, b⟩ := p
    by_cases hak : a = k
    · subst hak
      simp [alookup] at h
      exact ⟨[], rest, by simp [h], by simp, by simp [aset]⟩
    · simp [alookup, hak] at h
      obtain ⟨l₁, l₂, hl, hne, hset⟩ := ih h
      exact ⟨(a, b) :: l₁, l₂, by simp [hl], by simpa [hak] using hne,
        by simp [aset, hak, hset]⟩

theorem alookup_eq_of_mem_nodup {k : α} {v : β} {l : List (α × β)}
    (hnd : (l.map Prod.fst).Nodup) (hmem : (k, v) ∈ l) : alookup k l = some v := by
  induction l with
  | nil => simp at hmem
  | cons p rest ih =>
    obtain ⟨a, b⟩ := p
    rw [List.map_cons, List.nodup_cons] at hnd
    rcases List.mem_cons.mp hmem with heq | hmem'
    · injection heq with h1 h2
      subst h1; subst h2
      simp [alookup]
    · have hak : a ≠ k := by
        rintro rfl
        exact hnd.1 (List.mem_map.mpr ⟨(a, v), hmem', rfl⟩)
      simp [alookup, hak, ih hnd.2 hmem']

end ALemmas

/-! ### Sorting lemmas -/

theorem sortEntries_perm (m : List (ℚ × Nat)) : List.Perm (sortEntries m) m :=
  List.perm_insertionSort _ m

theorem sortEntries_sorted (m : List (ℚ × Nat)) :
    (sortEntries m).Sorted keyLE :=
  List.sorted_insertionSort keyLE m

/-- On pairwise-distinct keys (as in a `Map`), the sorted entries are
strictly ascending in the order key. -/
theorem sortEntries_strict {m : List (ℚ × Nat)} (hnd : (m.map Prod.fst).Nodup) :
    ((sortEntries m).map Prod.fst).Pairwise (· < ·) := by
  have hperm : List.Perm ((sortEntries m).map Prod.fst) (m.map Prod.fst) :=
    (sortEntries_perm m).map Prod.fst
  have hnd' : ((sortEntries m).map Prod.fst).Nodup := hperm.nodup_iff.mpr hnd
  have hle : ((sortEntries m).map Prod.fst).Pairwise (· ≤ ·) := by
    have := sortEntries_sorted m
    rw [List.pairwise_map]
    exact this
  have := hle.and hnd'
  exact this.imp (fun h => lt_of_le_of_ne h.1 h.2)

/-! ### Heap lemmas -/

theorem deref_heap_append {s : Registry π ε Λ} {r : Nat} (h : r < s.heap.length)
    (v : List (Action π ε)) :
    (s.heap ++ [v]).getD r [] = deref s r := by
  rw [deref, List.getD_append _ _ _ _ h]

theorem deref_heap_append_last (s : Registry π ε Λ) (v : List (Action π ε)) :
    (s.heap ++ [v]).getD s.heap.length [] = v := by
  simp [List.getD_eq_getElem?_getD, List.getElem?_append_right]

theorem deref_heap_set_self {s : Registry π ε Λ} {r : Nat} (h : r < s.heap.length)
    (v : List (Action π ε)) :
    (s.heap.set r v).getD r [] = v := by
  simp [List.getD_eq_getElem?_getD, List.getElem?_set_self, h]

theorem deref_heap_set_ne (s : Registry π ε Λ) {r r' : Nat} (h : r ≠ r')
    (v : List (Action π ε)) :
    (s.heap.set r v).getD r' [] = deref s r' := by
  simp [deref, List.getD_eq_getElem?_getD, List.getElem?_set_ne h]

/-! ### Well-formedness: membership, injectivity, preservation -/

theorem ref_mem_allRefs {s : Registry π ε Λ} {h : String} {m : List (ℚ × Nat)}
    {o : ℚ} {r : Nat} (hm : alookup h s.hooks = some m) (hr : (o, r) ∈ m) :
    r ∈ allRefs s := by
  refine List.mem_flatten.mpr ⟨m.map Prod.snd, ?_, ?_⟩
  · exact List.mem_map.mpr ⟨(h, m), mem_of_alookup hm, rfl⟩
  · exact List.mem_map.mpr ⟨(o, r), hr, rfl⟩

theorem chunk_nodup {s : Registry π ε Λ} (hWF : WF s) {h : String}
    {m : List (ℚ × Nat)} (hm : alookup h s.hooks = some m) :
    (m.map Prod.snd).Nodup := by
  have hmem : m.map Prod.snd ∈ s.hooks.map (fun q => q.2.map Prod.snd) :=
    List.mem_map.mpr ⟨(h, m), mem_of_alookup hm, rfl⟩
  exact (List.nodup_flatten.mp hWF.refsNodup).1 _ hmem

/-- Distinct (hook name, order key) slots hold distinct array references. -/
theorem refs_inj {s : Registry π ε Λ} (hWF : WF s) {h₁ h₂ : String}
    {m₁ m₂ : List (ℚ × Nat)} {o₁ o₂ : ℚ} {r : Nat}
    (hm₁ : alookup h₁ s.hooks = some m₁) (hr₁ : (o₁, r) ∈ m₁)
    (hm₂ : alookup h₂ s.hooks = some m₂) (hr₂ : (o₂, r) ∈ m₂) :
    h₁ = h₂ ∧ o₁ = o₂ := by
  by_cases hh : h₁ = h₂
  · subst hh
    rw [hm₁] at hm₂
    injection hm₂ with hm
    subst hm
    refine ⟨rfl, ?_⟩
    have hinj := List.inj_on_of_nodup_map (chunk_nodup hWF hm₁)
    have := hinj hr₁ hr₂ rfl
    injection this
  · exfalso
    have hpd : List.Pairwise List.Disjoint (s.hooks.map fun q => q.2.map Prod.snd) :=
      (List.nodup_flatten.mp hWF.refsNodup).2
    rw [List.pairwise_map] at hpd
    have hsym : Symmetric fun q q' : String × List (ℚ × Nat) =>
        List.Disjoint (q.2.map Prod.snd) (q'.2.map Prod.snd) :=
      fun _ _ hd => hd.symm
    have hne : (h₁, m₁) ≠ (h₂, m₂) := by
      intro heq
      injection heq with heq1 _
      exact hh heq1
    have hdisj := hpd.forall hsym (mem_of_alookup hm₁) (mem_of_alookup hm₂) hne
    exact hdisj (List.mem_map.mpr ⟨(o₁, r), hr₁, rfl⟩)
      (List.mem_map.mpr ⟨(o₂, r), hr₂, rfl⟩)

theorem WF_createBaseHooks (l : Option Λ) : WF (createBaseHooks (π := π) (ε := ε) l) := by
  constructor <;> simp [createBaseHooks, allRefs]

theorem WF_clear {s : Registry π ε Λ} : WF (clear s) := by
  constructor <;> simp [clear, allRefs]

theorem WF_setLogger {s : Registry π ε Λ} (hWF : WF s) (l : Option Λ) :
    WF (setLogger s l) := by
  constructor
  · exact hWF.hooksNodup
  · exact hWF.keysNodup
  · exact hWF.refsNodup
  · exact hWF.refsBound

theorem perm_insert_middle {α : Type} (A B C : List α) (n : α) :
    List.Perm (A ++ ((B ++ [n]) ++ C)) (n :: (A ++ (B ++ C))) := by
  have h1 : A ++ ((B ++ [n]) ++ C) = (A ++ B) ++ n :: C := by
    simp [List.append_assoc]
  have h2 : n :: (A ++ (B ++ C)) = n :: ((A ++ B) ++ C) := by
    simp [List.append_assoc]
  rw [h1, h2]
  exact List.perm_middle

theorem length_heap_register (s : Registry π ε Λ) (h : String) (a : Action π ε) (o : ℚ) :
    s.heap.length ≤ (register s h a o).heap.length := by
  rw [register]
  cases hh : alookup h s.hooks with
  | none => simp
  | some m =>
    cases ho : alookup o m with
    | some r => simp [ho]
    | none => simp [ho]

theorem WF_register {s : Registry π ε Λ} (hWF : WF s) (h : String) (a : Action π ε)
    (o : ℚ) : WF (register s h a o) := by
  rw [register]
  split
  next hh =>
    have hnotin : h ∉ s.hooks.map Prod.fst := alookup_none_iff.mp hh
    have hall : allRefs { s with heap := s.heap ++ [[a]], hooks := s.hooks ++ [(h, [(o, s.heap.length)])] } = allRefs s ++ [s.heap.length] := by
      simp [allRefs]
    have hnmem : s.heap.length ∉ allRefs s := fun hmem =>
      lt_irrefl _ (hWF.refsBound _ hmem)
    constructor
    · simp only [List.map_append, List.map_cons, List.map_nil]
      rw [List.nodup_append]
      exact ⟨hWF.hooksNodup, List.nodup_singleton h, by simpa using hnotin⟩
    · intro q hq
      rcases List.mem_append.mp hq with hq | hq
      · exact hWF.keysNodup q hq
      · simp at hq
        subst hq
        simp
    · rw [hall, List.nodup_append]
      exact ⟨hWF.refsNodup, List.nodup_singleton _, by simpa using hnmem⟩
    · intro r hr
      rw [hall] at hr
      simp only [List.length_append, List.length_cons, List.length_nil]
      rcases List.mem_append.mp hr with hr | hr
      · exact lt_trans (hWF.refsBound r hr) (by omega)
      · simp at hr
        omega
  next m hh =>
    split
    next r ho =>
      constructor
      · exact hWF.hooksNodup
      · exact hWF.keysNodup
      · exact hWF.refsNodup
      · intro r' hr'
        simpa using hWF.refsBound r' hr'
    next ho =>
      obtain ⟨l₁, l₂, hl, hfst, hset⟩ :=
        aset_decomp hh (m ++ [(o, s.heap.length)])
      have hnmem : s.heap.length ∉ allRefs s := fun hmem =>
        lt_irrefl _ (hWF.refsBound _ hmem)
      have hperm : List.Perm
          (allRefs { s with heap := s.heap ++ [[a]], hooks := aset h (m ++ [(o, s.heap.length)]) s.hooks })
          (s.heap.length :: allRefs s) := by
        rw [allRefs, allRefs]
        show List.Perm
          ((List.map _ (aset h (m ++ [(o, s.heap.length)]) s.hooks)).flatten) _
        rw [hset]
        conv_rhs => rw [hl]
        simp only [List.map_append, List.map_cons, List.flatten_append,
          List.flatten_cons, List.map_nil]
        exact perm_insert_middle _ _ _ _
      constructor
      · show ((aset h (m ++ [(o, s.heap.length)]) s.hooks).map Prod.fst).Nodup
        rw [hset]
        have hold := hWF.hooksNodup
        rw [hl] at hold
        simp only [List.map_append, List.map_cons] at hold ⊢
        exact hold
      · intro q hq
        rw [hset] at hq
        rcases List.mem_append.mp hq with hq | hq
        · exact hWF.keysNodup q (by rw [hl]; exact List.mem_append_left _ hq)
        · rcases List.mem_cons.mp hq with hq | hq
          · subst hq
            have hmnd : (m.map Prod.fst).Nodup :=
              hWF.keysNodup (h, m) (by rw [hl]; exact List.mem_append_right _ (by simp))
            have honotin : o ∉ m.map Prod.fst := alookup_none_iff.mp ho
            simp only [List.map_append, List.map_cons, List.map_nil]
            rw [List.nodup_append]
            exact ⟨hmnd, List.nodup_singleton _, by simpa using honotin⟩
          · exact hWF.keysNodup q
              (by rw [hl]; exact List.mem_append_right _ (List.mem_cons_of_mem _ hq))
      · exact hperm.nodup_iff.mpr (List.nodup_cons.mpr ⟨hnmem, hWF.refsNodup⟩)
      · intro r hr
        have hr' := hperm.mem_iff.mp hr
        show r < (s.heap ++ [[a]]).length
        simp only [List.length_append, List.length_cons, List.length_nil]
        rcases List.mem_cons.mp hr' with hr' | hr'
        · omega
        · exact lt_trans (hWF.refsBound r hr') (by omega)

theorem ref_lt {s : Registry π ε Λ} (hWF : WF s) {h : String} {m : List (ℚ × Nat)}
    {o : ℚ} {r : Nat} (hm : alookup h s.hooks = some m) (hr : alookup o m = some r) :
    r < s.heap.length :=
  hWF.refsBound r (ref_mem_allRefs hm (mem_of_alookup hr))

/-- Evaluation lemmas for `actionsAt`. -/
theorem actionsAt_eq_of_hook_none {s : Registry π ε Λ} {h : String} (o : ℚ)
    (hh : alookup h s.hooks = none) : actionsAt s h o = [] := by
  simp [actionsAt, hh]

theorem actionsAt_eq_of_key_none {s : Registry π ε Λ} {h : String} {m : List (ℚ × Nat)}
    {o : ℚ} (hh : alookup h s.hooks = some m) (ho : alookup o m = none) :
    actionsAt s h o = [] := by
  simp [actionsAt, hh, ho]

theorem actionsAt_eq_of_key_some {s : Registry π ε Λ} {h : String} {m : List (ℚ × Nat)}
    {o : ℚ} {r : Nat} (hh : alookup h s.hooks = some m) (ho : alookup o m = some r) :
    actionsAt s h o = deref s r := by
  simp [actionsAt, hh, ho]

/-- Lemma: `register` appends the action at the end of the sequence for its
order key (creating the hook's map and/or the key's sequence when absent). -/
theorem actionsAt_register_self {s : Registry π ε Λ} (hWF : WF s) (h : String)
    (a : Action π ε) (o : ℚ) :
    actionsAt (register s h a o) h o = actionsAt s h o ++ [a] := by
  rw [register]
  split
  next hh =>
    have h1 : alookup h ({ s with heap := s.heap ++ [[a]], hooks := s.hooks ++ [(h, [(o, s.heap.length)])] } : Registry π ε Λ).hooks = some [(o, s.heap.length)] := by
      show alookup h (s.hooks ++ [(h, [(o, s.heap.length)])]) = _
      rw [alookup_append, hh]
      simp [alookup_cons]
    have h2 : alookup o [(o, s.heap.length)] = some s.heap.length := by
      simp [alookup_cons]
    rw [actionsAt_eq_of_key_some h1 h2, actionsAt_eq_of_hook_none o hh]
    show (s.heap ++ [[a]]).getD s.heap.length [] = [] ++ [a]
    rw [deref_heap_append_last s [a]]
    rfl
  next m hh =>
    split
    next r ho =>
      have hlt : r < s.heap.length := ref_lt hWF hh ho
      have h1 : alookup h ({ s with heap := s.heap.set r (s.heap.getD r [] ++ [a]) } : Registry π ε Λ).hooks = some m := hh
      rw [actionsAt_eq_of_key_some h1 ho, actionsAt_eq_of_key_some hh ho]
      show (s.heap.set r (s.heap.getD r [] ++ [a])).getD r [] = deref s r ++ [a]
      rw [deref_heap_set_self hlt]
      rfl
    next ho =>
      have h1 : alookup h ({ s with heap := s.heap ++ [[a]], hooks := aset h (m ++ [(o, s.heap.length)]) s.hooks } : Registry π ε Λ).hooks = some (m ++ [(o, s.heap.length)]) := by
        show alookup h (aset h (m ++ [(o, s.heap.length)]) s.hooks) = _
        exact alookup_aset_self ..
      have h2 : alookup o (m ++ [(o, s.heap.length)]) = some s.heap.length := by
        rw [alookup_append, ho]
        simp [alookup_cons]
      rw [actionsAt_eq_of_key_some h1 h2, actionsAt_eq_of_key_none hh ho]
      show (s.heap ++ [[a]]).getD s.heap.length [] = [] ++ [a]
      rw [deref_heap_append_last s [a]]
      rfl

/-- Lemma: `register` under `(h, o)` leaves every other `(hook, order)` slot's
action sequence unchanged. -/
theorem actionsAt_register_frame {s : Registry π ε Λ} (hWF : WF s) {h h' : String}
    (a : Action π ε) {o o' : ℚ} (hne : h' ≠ h ∨ o' ≠ o) :
    actionsAt (register s h a o) h' o' = actionsAt s h' o' := by
  rw [register]
  split
  next hh =>
    cases hm' : alookup h' s.hooks with
    | some m' =>
      have h1 : alookup h' ({ s with heap := s.heap ++ [[a]], hooks := s.hooks ++ [(h, [(o, s.heap.length)])] } : Registry π ε Λ).hooks = some m' := by
        show alookup h' (s.hooks ++ [(h, [(o, s.heap.length)])]) = _
        rw [alookup_append, hm']
      cases ho' : alookup o' m' with
      | some r' =>
        have hlt : r' < s.heap.length := ref_lt hWF hm' ho'
        rw [actionsAt_eq_of_key_some h1 ho', actionsAt_eq_of_key_some hm' ho']
        show (s.heap ++ [[a]]).getD r' [] = deref s r'
        exact deref_heap_append hlt [a]
      | none =>
        rw [actionsAt_eq_of_key_none h1 ho', actionsAt_eq_of_key_none hm' ho']
    | none =>
      rw [actionsAt_eq_of_hook_none o' hm']
      by_cases hhh : h = h'
      · subst hhh
        have hoo' : o' ≠ o := by
          rcases hne with hne | hne
          · exact absurd rfl hne
          · exact hne
        have h1 : alookup h ({ s with heap := s.heap ++ [[a]], hooks := s.hooks ++ [(h, [(o, s.heap.length)])] } : Registry π ε Λ).hooks = some [(o, s.heap.length)] := by
          show alookup h (s.hooks ++ [(h, [(o, s.heap.length)])]) = _
          rw [alookup_append, hh]
          simp [alookup_cons]
        have h2 : alookup o' [(o, s.heap.length)] = none := by
          have : o ≠ o' := fun hq => hoo' hq.symm
          simp [alookup_cons, alookup_nil, this]
        exact actionsAt_eq_of_key_none h1 h2
      · have h1 : alookup h' ({ s with heap := s.heap ++ [[a]], hooks := s.hooks ++ [(h, [(o, s.heap.length)])] } : Registry π ε Λ).hooks = none := by
          show alookup h' (s.hooks ++ [(h, [(o, s.heap.length)])]) = _
          rw [alookup_append, hm']
          simp [alookup_cons, alookup_nil, hhh]
        exact actionsAt_eq_of_hook_none o' h1
  next m hh =>
    split
    next r ho =>
      cases hm' : alookup h' s.hooks with
      | some m' =>
        have h1 : alookup h' ({ s with heap := s.heap.set r (s.heap.getD r [] ++ [a]) } : Registry π ε Λ).hooks = some m' := hm'
        cases ho' : alookup o' m' with
        | some r' =>
          have hrr : r ≠ r' := by
            intro heq
            subst heq
            have := refs_inj hWF hm' (mem_of_alookup ho') hh (mem_of_alookup ho)
            rcases hne with hne | hne
            · exact hne this.1
            · exact hne this.2
          rw [actionsAt_eq_of_key_some h1 ho', actionsAt_eq_of_key_some hm' ho']
          show (s.heap.set r (s.heap.getD r [] ++ [a])).getD r' [] = deref s r'
          exact deref_heap_set_ne s hrr _
        | none =>
          rw [actionsAt_eq_of_key_none h1 ho', actionsAt_eq_of_key_none hm' ho']
      | none =>
        have h1 : alookup h' ({ s with heap := s.heap.set r (s.heap.getD r [] ++ [a]) } : Registry π ε Λ).hooks = none := hm'
        rw [actionsAt_eq_of_hook_none o' h1, actionsAt_eq_of_hook_none o' hm']
    next ho =>
      by_cases hhh : h' = h
      · subst hhh
        have hoo' : o' ≠ o := by
          rcases hne with hne | hne
          · exact absurd rfl hne
          · exact hne
        have h1 : alookup h' ({ s with heap := s.heap ++ [[a]], hooks := aset h' (m ++ [(o, s.heap.length)]) s.hooks } : Registry π ε Λ).hooks = some (m ++ [(o, s.heap.length)]) := by
          show alookup h' (aset h' (m ++ [(o, s.heap.length)]) s.hooks) = _
          exact alookup_aset_self ..
        cases ho'' : alookup o' m with
        | some r' =>
          have hlt : r' < s.heap.length := ref_lt hWF hh ho''
          have h2 : alookup o' (m ++ [(o, s.heap.length)]) = some r' := by
            rw [alookup_append, ho'']
          rw [actionsAt_eq_of_key_some h1 h2, actionsAt_eq_of_key_some hh ho'']
          show (s.heap ++ [[a]]).getD r' [] = deref s r'
          exact deref_heap_append hlt [a]
        | none =>
          have h2 : alookup o' (m ++ [(o, s.heap.length)]) = none := by
            rw [alookup_append, ho'']
            have : o ≠ o' := fun hq => hoo' hq.symm
            simp [alookup_cons, alookup_nil, this]
          rw [actionsAt_eq_of_key_none h1 h2, actionsAt_eq_of_key_none hh ho'']
      · have hset' : alookup h' ({ s with heap := s.heap ++ [[a]], hooks := aset h (m ++ [(o, s.heap.length)]) s.hooks } : Registry π ε Λ).hooks = alookup h' s.hooks := by
          show alookup h' (aset h (m ++ [(o, s.heap.length)]) s.hooks) = _
          exact alookup_aset_ne (fun hq => hhh hq.symm) _ _
        cases hm' : alookup h' s.hooks with
        | some m' =>
          have h1 := hset'.trans hm'
          cases ho'' : alookup o' m' with
          | some r' =>
            have hlt : r' < s.heap.length := ref_lt hWF hm' ho''
            rw [actionsAt_eq_of_key_some h1 ho'', actionsAt_eq_of_key_some hm' ho'']
            show (s.heap ++ [[a]]).getD r' [] = deref s r'
            exact deref_heap_append hlt [a]
          | none =>
            rw [actionsAt_eq_of_key_none h1 ho'', actionsAt_eq_of_key_none hm' ho'']
        | none =>
          rw [actionsAt_eq_of_hook_none o' (hset'.trans hm'), actionsAt_eq_of_hook_none o' hm']

/-! ### Synchronous fire: characterization -/

theorem runBatchSync_ok {p : π} {batch : List (Action π ε)}
    (hok : ∀ x ∈ batch, x.run p = none) :
    runBatchSync p batch = (batch, none) := by
  induction batch with
  | nil => rfl
  | cons a rest ih =>
    have ha : a.run p = none := hok a (by simp)
    have ih' := ih (fun x hx => hok x (List.mem_cons_of_mem _ hx))
    simp [runBatchSync, ha, ih']

theorem runBatchSync_fail {p : π} {pre post : List (Action π ε)} {a : Action π ε}
    {e : ε} (hpre : ∀ x ∈ pre, x.run p = none) (ha : a.run p = some e) :
    runBatchSync p (pre ++ a :: post) = (pre ++ [a], some (a, e)) := by
  induction pre with
  | nil => simp [runBatchSync, ha]
  | cons x rest ih =>
    have hx : x.run p = none := hpre x (by simp)
    have ih' := ih (fun y hy => hpre y (List.mem_cons_of_mem _ hy))
    simp [runBatchSync, hx, ih']

theorem runBatchSync_invoked_front (p : π) (batch : List (Action π ε)) :
    ∃ t, (runBatchSync p batch).1 ++ t = batch := by
  induction batch with
  | nil => exact ⟨[], rfl⟩
  | cons a rest ih =>
    obtain ⟨t, ht⟩ := ih
    cases ha : a.run p with
    | some e => exact ⟨rest, by simp [runBatchSync, ha]⟩
    | none => exact ⟨t, by simp [runBatchSync, ha, ht]⟩

/-- A batch in which every action succeeds contributes its debug line and its
full action list, and the loop continues with the remaining batches. -/
theorem fireSyncBatches_cons_ok {lg : Option Λ} {h : String} {p : π}
    {batch : List (Action π ε)} (hok : ∀ x ∈ batch, x.run p = none)
    (rest : List (List (Action π ε))) :
    fireSyncBatches lg h p (batch :: rest) =
      { logs := emit lg (LogLine.debug (debugMsg h batch)) ++ (fireSyncBatches lg h p rest).logs
        invoked := batch ++ (fireSyncBatches lg h p rest).invoked
        outcome := (fireSyncBatches lg h p rest).outcome } := by
  simp [fireSyncBatches, runBatchSync_ok hok]

/-- A batch whose `k`-th action fails (all earlier ones succeeding) stops the
synchronous fire: only the prefix up to and including the failing action ran,
the error line carries the failing action's fallback name, and the error is
re-raised. -/
theorem fireSyncBatches_cons_fail {lg : Option Λ} {h : String} {p : π}
    {pre post : List (Action π ε)} {a : Action π ε} {e : ε}
    (hpre : ∀ x ∈ pre, x.run p = none) (ha : a.run p = some e)
    (rest : List (List (Action π ε))) :
    fireSyncBatches lg h p ((pre ++ a :: post) :: rest) =
      { logs := emit lg (LogLine.debug (debugMsg h (pre ++ a :: post))) ++
          emit lg (LogLine.error ⟨e⟩ (errorMsg (fallbackName a) h))
        invoked := pre ++ [a]
        outcome := some e } := by
  simp [fireSyncBatches, runBatchSync_fail hpre ha]

theorem fireSyncBatches_all_ok {lg : Option Λ} {h : String} {p : π}
    {bs : List (List (Action π ε))} (hok : ∀ b ∈ bs, ∀ x ∈ b, x.run p = none) :
    fireSyncBatches lg h p bs =
      { logs := (bs.map (fun b => emit lg (LogLine.debug (debugMsg h b)))).flatten
        invoked := bs.flatten
        outcome := none } := by
  induction bs with
  | nil => rfl
  | cons b rest ih =>
    have hb := hok b (by simp)
    have ih' := ih (fun b' hb' x hx => hok b' (List.mem_cons_of_mem _ hb') x hx)
    rw [fireSyncBatches_cons_ok hb, ih']
    simp

/-- The batches before a failing one contribute their debug lines and all
their actions, then the loop proceeds into the remaining batches. -/
theorem fireSyncBatches_append_ok {lg : Option Λ} {h : String} {p : π}
    {bs₁ : List (List (Action π ε))} (bs₂ : List (List (Action π ε)))
    (hok : ∀ b ∈ bs₁, ∀ x ∈ b, x.run p = none) :
    fireSyncBatches lg h p (bs₁ ++ bs₂) =
      { logs := (bs₁.map (fun b => emit lg (LogLine.debug (debugMsg h b)))).flatten ++
          (fireSyncBatches lg h p bs₂).logs
        invoked := bs₁.flatten ++ (fireSyncBatches lg h p bs₂).invoked
        outcome := (fireSyncBatches lg h p bs₂).outcome } := by
  induction bs₁ with
  | nil => rfl
  | cons b rest ih =>
    have hb := hok b (by simp)
    have ih' := ih (fun b' hb' x hx => hok b' (List.mem_cons_of_mem _ hb') x hx)
    rw [List.cons_append, fireSyncBatches_cons_ok hb, ih']
    simp

theorem runBatchSync_fst_of_none {p : π} {b : List (Action π ε)}
    (h : (runBatchSync p b).2 = none) : (runBatchSync p b).1 = b := by
  induction b with
  | nil => rfl
  | cons a rest ih =>
    cases ha : a.run p with
    | some e =>
      rw [runBatchSync, ha] at h
      simp at h
    | none =>
      rw [runBatchSync, ha] at h ⊢
      simp at h ⊢
      exact ih h

/-- The synchronous invocation trace is a prefix of the ascending-order
concatenation of all batches. -/
theorem fireSyncBatches_invoked_front (lg : Option Λ) (h : String) (p : π)
    (bs : List (List (Action π ε))) :
    ∃ t, (fireSyncBatches lg h p bs).invoked ++ t = bs.flatten := by
  induction bs with
  | nil => exact ⟨[], rfl⟩
  | cons b rest ih =>
    obtain ⟨t, ht⟩ := ih
    rw [fireSyncBatches]
    cases hrb : runBatchSync p b with
    | mk inv out =>
      cases out with
      | some ae =>
        obtain ⟨a, e⟩ := ae
        obtain ⟨t', ht'⟩ := runBatchSync_invoked_front p b
        rw [hrb] at ht'
        refine ⟨t' ++ rest.flatten, ?_⟩
        show inv ++ (t' ++ rest.flatten) = (b :: rest).flatten
        rw [List.flatten_cons, ← List.append_assoc, ht']
      | none =>
        have hinv : inv = b := by
          have h2 : (runBatchSync p b).2 = none := by rw [hrb]
          have h1 := runBatchSync_fst_of_none h2
          rw [hrb] at h1
          exact h1
        subst hinv
        refine ⟨t, ?_⟩
        show inv ++ (fireSyncBatches lg h p rest).invoked ++ t = (inv :: rest).flatten
        rw [List.flatten_cons, List.append_assoc, ht]

/-! ### Asynchronous fire: characterization -/

theorem runBatchAsync_ok {p : π} {batch : List (Action π ε)}
    (hok : ∀ x ∈ batch, x.run p = none) : runBatchAsync p batch = none := by
  rw [runBatchAsync]
  have : batch.filterMap (fun a => a.run p) = [] := List.filterMap_eq_nil_iff.mpr hok
  rw [this]
  rfl

theorem runBatchAsync_mem {p : π} {batch : List (Action π ε)} {e : ε}
    (h : runBatchAsync p batch = some e) :
    e ∈ batch.filterMap (fun a => a.run p) := by
  rw [runBatchAsync] at h
  exact List.mem_of_mem_head? h

theorem runBatchAsync_some_of_fail {p : π} {batch : List (Action π ε)}
    {x : Action π ε} {e : ε} (hx : x ∈ batch) (he : x.run p = some e) :
    ∃ e', runBatchAsync p batch = some e' := by
  rw [runBatchAsync]
  have hne : batch.filterMap (fun a => a.run p) ≠ [] := by
    intro hnil
    have := List.filterMap_eq_nil_iff.mp hnil x hx
    rw [he] at this
    exact Option.noConfusion this
  cases hl : batch.filterMap (fun a => a.run p) with
  | nil => exact absurd hl hne
  | cons e' tl => exact ⟨e', rfl⟩

theorem fireAsyncBatches_cons_ok {lg : Option Λ} {h : String} {p : π}
    {batch : List (Action π ε)} (hok : ∀ x ∈ batch, x.run p = none)
    (rest : List (List (Action π ε))) :
    fireAsyncBatches lg h p (batch :: rest) =
      { logs := emit lg (LogLine.debug (debugMsg h batch)) ++ (fireAsyncBatches lg h p rest).logs
        invoked := batch ++ (fireAsyncBatches lg h p rest).invoked
        outcome := (fireAsyncBatches lg h p rest).outcome } := by
  simp [fireAsyncBatches, runBatchAsync_ok hok]

/-- A batch whose join fails stops the asynchronous fire: the whole batch was
started, the error line joins the names of all of the batch's actions, the
join's error is re-raised, and no later batch is reached. -/
theorem fireAsyncBatches_cons_fail {lg : Option Λ} {h : String} {p : π}
    {batch : List (Action π ε)} {e : ε} (he : runBatchAsync p batch = some e)
    (rest : List (List (Action π ε))) :
    fireAsyncBatches lg h p (batch :: rest) =
      { logs := emit lg (LogLine.debug (debugMsg h batch)) ++
          emit lg (LogLine.error ⟨e⟩ (errorMsg (joinedNames batch) h))
        invoked := batch
        outcome := some e } := by
  simp [fireAsyncBatches, he]

theorem fireAsyncBatches_all_ok {lg : Option Λ} {h : String} {p : π}
    {bs : List (List (Action π ε))} (hok : ∀ b ∈ bs, ∀ x ∈ b, x.run p = none) :
    fireAsyncBatches lg h p bs =
      { logs := (bs.map (fun b => emit lg (LogLine.debug (debugMsg h b)))).flatten
        invoked := bs.flatten
        outcome := none } := by
  induction bs with
  | nil => rfl
  | cons b rest ih =>
    have hb := hok b (by simp)
    have ih' := ih (fun b' hb' x hx => hok b' (List.mem_cons_of_mem _ hb') x hx)
    rw [fireAsyncBatches_cons_ok hb, ih']
    simp

theorem fireAsyncBatches_append_ok {lg : Option Λ} {h : String} {p : π}
    {bs₁ : List (List (Action π ε))} (bs₂ : List (List (Action π ε)))
    (hok : ∀ b ∈ bs₁, ∀ x ∈ b, x.run p = none) :
    fireAsyncBatches lg h p (bs₁ ++ bs₂) =
      { logs := (bs₁.map (fun b => emit lg (LogLine.debug (debugMsg h b)))).flatten ++
          (fireAsyncBatches lg h p bs₂).logs
        invoked := bs₁.flatten ++ (fireAsyncBatches lg h p bs₂).invoked
        outcome := (fireAsyncBatches lg h p bs₂).outcome } := by
  induction bs₁ with
  | nil => rfl
  | cons b rest ih =>
    have hb := hok b (by simp)
    have ih' := ih (fun b' hb' x hx => hok b' (List.mem_cons_of_mem _ hb') x hx)
    rw [List.cons_append, fireAsyncBatches_cons_ok hb, ih']
    simp

/-- The asynchronous invocation trace is a concatenation of a prefix of the
batch list: every started batch is started whole, in ascending order. -/
theorem fireAsyncBatches_invoked_take (lg : Option Λ) (h : String) (p : π)
    (bs : List (List (Action π ε))) :
    ∃ k, (fireAsyncBatches lg h p bs).invoked = (bs.take k).flatten := by
  induction bs with
  | nil => exact ⟨0, rfl⟩
  | cons b rest ih =>
    obtain ⟨k, hk⟩ := ih
    cases he : runBatchAsync p b with
    | some e =>
      refine ⟨1, ?_⟩
      rw [fireAsyncBatches_cons_fail he]
      simp
    | none =>
      have hok : ∀ x ∈ b, x.run p = none := by
        rw [runBatchAsync] at he
        exact List.filterMap_eq_nil_iff.mp (List.head?_eq_none_iff.mp he)
      refine ⟨k + 1, ?_⟩
      rw [fireAsyncBatches_cons_ok hok, List.take_succ_cons, List.flatten_cons, hk]

theorem fireAsyncBatches_invoked_front (lg : Option Λ) (h : String) (p : π)
    (bs : List (List (Action π ε))) :
    ∃ t, (fireAsyncBatches lg h p bs).invoked ++ t = bs.flatten := by
  obtain ⟨k, hk⟩ := fireAsyncBatches_invoked_take lg h p bs
  refine ⟨(bs.drop k).flatten, ?_⟩
  rw [hk, ← List.flatten_append, List.take_append_drop]

/-! ### Batch view lemmas -/

theorem hookEntries_of_some {s : Registry π ε Λ} {h : String} {m : List (ℚ × Nat)}
    (hm : alookup h s.hooks = some m) : hookEntries s h = m := by
  simp [hookEntries, hm]

theorem hookEntries_of_none {s : Registry π ε Λ} {h : String}
    (hm : alookup h s.hooks = none) : hookEntries s h = [] := by
  simp [hookEntries, hm]

theorem hookEntries_keys_nodup {s : Registry π ε Λ} (hWF : WF s) (h : String) :
    ((hookEntries s h).map Prod.fst).Nodup := by
  cases hm : alookup h s.hooks with
  | none => rw [hookEntries_of_none hm]; exact List.nodup_nil
  | some m =>
    rw [hookEntries_of_some hm]
    exact hWF.keysNodup (h, m) (mem_of_alookup hm)

/-- Each element of the returned batch is exactly the sequence currently
stored for the corresponding order key. -/
theorem getActionsBatch_eq_map_actionsAt {s : Registry π ε Λ} (hWF : WF s) (h : String) :
    getActionsBatch s h = (batchEntries s h).map (fun e => actionsAt s h e.1) := by
  rw [getActionsBatch, getActionsBatchRefs, List.map_map]
  refine List.map_congr_left ?_
  intro e he
  cases hm : alookup h s.hooks with
  | none =>
    rw [batchEntries, hookEntries_of_none hm] at he
    simp [sortEntries] at he
  | some m =>
    rw [batchEntries, hookEntries_of_some hm] at he
    have hmem : e ∈ m := (sortEntries_perm m).mem_iff.mp he
    obtain ⟨o, r⟩ := e
    have hlk : alookup o m = some r :=
      alookup_eq_of_mem_nodup (hWF.keysNodup (h, m) (mem_of_alookup hm)) hmem
    show deref s r = actionsAt s h o
    rw [actionsAt_eq_of_key_some hm hlk]

theorem getActionsBatch_of_none {s : Registry π ε Λ} {h : String}
    (hm : alookup h s.hooks = none) : getActionsBatch s h = [] := by
  rw [getActionsBatch, getActionsBatchRefs, batchEntries, hookEntries_of_none hm]
  rfl

/-- After `register s h a o`, the key `o` is present under `h`. -/
theorem register_key_present (s : Registry π ε Λ) (h : String) (a : Action π ε)
    (o : ℚ) : ∃ r, alookup o (hookEntries (register s h a o) h) = some r := by
  rw [register]
  split
  next hh =>
    have h1 : alookup h ({ s with heap := s.heap ++ [[a]], hooks := s.hooks ++ [(h, [(o, s.heap.length)])] } : Registry π ε Λ).hooks = some [(o, s.heap.length)] := by
      show alookup h (s.hooks ++ [(h, [(o, s.heap.length)])]) = _
      rw [alookup_append, hh]
      simp [alookup_cons]
    rw [hookEntries_of_some h1]
    exact ⟨s.heap.length, by simp [alookup_cons]⟩
  next m hh =>
    split
    next r ho =>
      have h1 : alookup h ({ s with heap := s.heap.set r (s.heap.getD r [] ++ [a]) } : Registry π ε Λ).hooks = some m := hh
      rw [hookEntries_of_some h1]
      exact ⟨r, ho⟩
    next ho =>
      have h1 : alookup h ({ s with heap := s.heap ++ [[a]], hooks := aset h (m ++ [(o, s.heap.length)]) s.hooks } : Registry π ε Λ).hooks = some (m ++ [(o, s.heap.length)]) := by
        show alookup h (aset h (m ++ [(o, s.heap.length)]) s.hooks) = _
        exact alookup_aset_self ..
      rw [hookEntries_of_some h1]
      refine ⟨s.heap.length, ?_⟩
      rw [alookup_append, ho]
      simp [alookup_cons]

/-- When the order key is already present, `register` only mutates the
stored array in place: the maps (and hence the reference-level batch) are
unchanged. -/
theorem register_hit_eq {s : Registry π ε Λ} {h : String} {m : List (ℚ × Nat)}
    {o : ℚ} {r : Nat} (hm : alookup h s.hooks = some m) (ho : alookup o m = some r)
    (a : Action π ε) :
    register s h a o = { s with heap := s.heap.set r (s.heap.getD r [] ++ [a]) } := by
  simp [register, hm, ho]

/-! ### Logger-dependence lemmas -/

theorem fireSyncBatches_logs_none (h : String) (p : π)
    (bs : List (List (Action π ε))) :
    (fireSyncBatches (none : Option Λ) h p bs).logs = [] := by
  induction bs with
  | nil => rfl
  | cons b rest ih =>
    rw [fireSyncBatches]
    cases hrb : runBatchSync p b with
    | mk inv out =>
      cases out with
      | some ae => obtain ⟨a, e⟩ := ae; simp [emit]
      | none => simp [emit, ih]

theorem fireSyncBatches_logs_tag (lgv : Λ) (h : String) (p : π)
    (bs : List (List (Action π ε))) :
    ∀ q ∈ (fireSyncBatches (some lgv) h p bs).logs, q.1 = lgv := by
  induction bs with
  | nil => intro q hq; simp [fireSyncBatches] at hq
  | cons b rest ih =>
    intro q hq
    rw [fireSyncBatches] at hq
    cases hrb : runBatchSync p b with
    | mk inv out =>
      rw [hrb] at hq
      cases out with
      | some ae =>
        obtain ⟨a, e⟩ := ae
        simp [emit] at hq
        rcases hq with hq | hq <;> simp [hq]
      | none =>
        simp [emit] at hq
        rcases hq with hq | hq
        · simp [hq]
        · exact ih q hq

theorem fireSyncBatches_logger_indep (lg lg' : Option Λ) (h : String) (p : π)
    (bs : List (List (Action π ε))) :
    (fireSyncBatches lg h p bs).invoked = (fireSyncBatches lg' h p bs).invoked
    ∧ (fireSyncBatches lg h p bs).outcome = (fireSyncBatches lg' h p bs).outcome := by
  induction bs with
  | nil => exact ⟨rfl, rfl⟩
  | cons b rest ih =>
    rw [fireSyncBatches, fireSyncBatches]
    cases hrb : runBatchSync p b with
    | mk inv out =>
      cases out with
      | some ae => obtain ⟨a, e⟩ := ae; exact ⟨rfl, rfl⟩
      | none => exact ⟨by simp [ih.1], by simp [ih.2]⟩

theorem fireAsyncBatches_logs_none (h : String) (p : π)
    (bs : List (List (Action π ε))) :
    (fireAsyncBatches (none : Option Λ) h p bs).logs = [] := by
  induction bs with
  | nil => rfl
  | cons b rest ih =>
    rw [fireAsyncBatches]
    cases hrb : runBatchAsync p b with
    | some e => simp [emit]
    | none => simp [emit, ih]

theorem fireAsyncBatches_logs_tag (lgv : Λ) (h : String) (p : π)
    (bs : List (List (Action π ε))) :
    ∀ q ∈ (fireAsyncBatches (some lgv) h p bs).logs, q.1 = lgv := by
  induction bs with
  | nil => intro q hq; simp [fireAsyncBatches] at hq
  | cons b rest ih =>
    intro q hq
    rw [fireAsyncBatches] at hq
    cases hrb : runBatchAsync p b with
    | some e =>
      rw [hrb] at hq
      simp [emit] at hq
      rcases hq with hq | hq <;> simp [hq]
    | none =>
      rw [hrb] at hq
      simp [emit] at hq
      rcases hq with hq | hq
      · simp [hq]
      · exact ih q hq

theorem fireAsyncBatches_logger_indep (lg lg' : Option Λ) (h : String) (p : π)
    (bs : List (List (Action π ε))) :
    (fireAsyncBatches lg h p bs).invoked = (fireAsyncBatches lg' h p bs).invoked
    ∧ (fireAsyncBatches lg h p bs).outcome = (fireAsyncBatches lg' h p bs).outcome := by
  induction bs with
  | nil => exact ⟨rfl, rfl⟩
  | cons b rest ih =>
    rw [fireAsyncBatches, fireAsyncBatches]
    cases hrb : runBatchAsync p b with
    | some e => exact ⟨rfl, rfl⟩
    | none => exact ⟨by simp [ih.1], by simp [ih.2]⟩

theorem runCmds_append (s : Registry π ε Λ) (cs₁ cs₂ : List (Cmd π ε Λ)) :
    runCmds s (cs₁ ++ cs₂) =
      ((runCmds (runCmds s cs₁).1 cs₂).1,
        (runCmds s cs₁).2 ++ (runCmds (runCmds s cs₁).1 cs₂).2) := by
  induction cs₁ generalizing s with
  | nil => simp [runCmds]
  | cons c cs ih =>
    rw [List.cons_append, runCmds, runCmds, ih]
    simp

/-! ### Claim theorems -/

/-- C6: `fire` (sync or async) on a hook name with zero registrations is a
no-op that completes successfully: no actions run, no log lines are emitted
even when a logger is configured, and `getActionsBatch` returns the empty
sequence. -/
theorem C6_unknown_hook_safe {s : Registry π ε Λ} {h : String} (p : π)
    (hnone : alookup h s.hooks = none) :
    getActionsBatch s h = []
    ∧ fireSync s h p = { logs := [], invoked := [], outcome := none }
    ∧ fireAsync s h p = { logs := [], invoked := [], outcome := none } := by
  have hb := getActionsBatch_of_none hnone
  refine ⟨hb, ?_, ?_⟩
  · rw [fireSync, hb]; rfl
  · rw [fireAsync, hb]; rfl

theorem C6_unknown_hook_safe_witness :
    alookup "unused" sEmpty.hooks = none
    ∧ (getActionsBatch sEmpty "unused" = []
      ∧ fireSync sEmpty "unused" () = { logs := [], invoked := [], outcome := none }
      ∧ fireAsync sEmpty "unused" () = { logs := [], invoked := [], outcome := none }) :=
  ⟨rfl, C6_unknown_hook_safe () rfl⟩

/-- C7: `clear()` empties the whole store (every hook name), is idempotent,
and after it `fire` on any name is a successful no-op. -/
theorem C7_clear_idempotent (s : Registry π ε Λ) (h : String) (p : π) :
    clear (clear s) = clear s
    ∧ (∀ h', alookup h' (clear s).hooks = none)
    ∧ getActionsBatch (clear s) h = []
    ∧ fireSync (clear s) h p = { logs := [], invoked := [], outcome := none }
    ∧ fireAsync (clear s) h p = { logs := [], invoked := [], outcome := none } := by
  have hnone : ∀ h', alookup h' (clear s).hooks = none := fun h' => rfl
  have hb := getActionsBatch_of_none (hnone h)
  refine ⟨rfl, hnone, hb, ?_, ?_⟩
  · rw [fireSync, hb]; rfl
  · rw [fireAsync, hb]; rfl

/-- C8: `setLogger` swaps the sink used by subsequent `fire` calls
(`getLogger` returns it), never touches the journal of lines already
emitted, and without a logger `fire` emits nothing while invoking the same
actions and re-raising the same outcome. -/
theorem C8_setLogger_swap (s : Registry π ε Λ) (l : Option Λ) (lgv : Λ)
    (h : String) (p : π) (cs : List (Cmd π ε Λ)) :
    getLogger (setLogger s l) = l
    ∧ (runCmds s (cs ++ [Cmd.setL l])).2 = (runCmds s cs).2
    ∧ (runCmds s (cs ++ [Cmd.setL l])).1.logger = l
    ∧ (∀ q ∈ (fireSync (setLogger s (some lgv)) h p).logs, q.1 = lgv)
    ∧ (∀ q ∈ (fireAsync (setLogger s (some lgv)) h p).logs, q.1 = lgv)
    ∧ (fireSync (setLogger s none) h p).logs = []
    ∧ (fireAsync (setLogger s none) h p).logs = []
    ∧ (fireSync (setLogger s l) h p).invoked = (fireSync s h p).invoked
    ∧ (fireSync (setLogger s l) h p).outcome = (fireSync s h p).outcome
    ∧ (fireAsync (setLogger s l) h p).invoked = (fireAsync s h p).invoked
    ∧ (fireAsync (setLogger s l) h p).outcome = (fireAsync s h p).outcome := by
  have hjournal : runCmds s (cs ++ [Cmd.setL l]) =
      ((runCmds (runCmds s cs).1 [Cmd.setL l]).1,
        (runCmds s cs).2 ++ (runCmds (runCmds s cs).1 [Cmd.setL l]).2) :=
    runCmds_append s cs [Cmd.setL l]
  refine ⟨rfl, ?_, ?_, ?_, ?_, ?_, ?_, ?_, ?_, ?_, ?_⟩
  · rw [hjournal]
    show (runCmds s cs).2 ++ ([] ++ []) = (runCmds s cs).2
    simp
  · rw [hjournal]
    rfl
  · exact fireSyncBatches_logs_tag lgv h p _
  · exact fireAsyncBatches_logs_tag lgv h p _
  · exact fireSyncBatches_logs_none h p _
  · exact fireAsyncBatches_logs_none h p _
  · exact (fireSyncBatches_logger_indep l s.logger h p (getActionsBatch s h)).1
  · exact (fireSyncBatches_logger_indep l s.logger h p (getActionsBatch s h)).2
  · exact (fireAsyncBatches_logger_indep l s.logger h p (getActionsBatch s h)).1
  · exact (fireAsyncBatches_logger_indep l s.logger h p (getActionsBatch s h)).2

theorem flatten_map_singleton {α β : Type} (f : α → β) (l : List α) :
    (l.map (fun x => [f x])).flatten = l.map f := by
  induction l with
  | nil => rfl
  | cons a rest ih => simp [ih]

/-- C1: the batch view is one entry per distinct order key of the hook's
map, strictly ascending in the numeric key (whatever the insertion order of
the keys was), each entry being exactly the sequence stored for that key;
and both firing strategies walk the batches in exactly this order: the sync
trace is a prefix of the ascending concatenation and the async trace is the
concatenation of the first `k` batches for some `k`. -/
theorem C1_ordered_batches {s : Registry π ε Λ} (hWF : WF s) (h : String) (p : π) :
    List.Perm (batchEntries s h) (hookEntries s h)
    ∧ ((batchEntries s h).map Prod.fst).Pairwise (· < ·)
    ∧ getActionsBatch s h = (batchEntries s h).map (fun e => actionsAt s h e.1)
    ∧ (∃ t, (fireSync s h p).invoked ++ t = (getActionsBatch s h).flatten)
    ∧ (∃ k, (fireAsync s h p).invoked = ((getActionsBatch s h).take k).flatten) :=
  ⟨sortEntries_perm _, sortEntries_strict (hookEntries_keys_nodup hWF h),
    getActionsBatch_eq_map_actionsAt hWF h,
    fireSyncBatches_invoked_front _ _ _ _,
    fireAsyncBatches_invoked_take _ _ _ _⟩

/-- C2: when the `k`-th action (registration order) of a batch throws in a
synchronous fire, execution stops there: nothing later in that batch and no
later batch runs, the error line carries the failing action's fallback name
and the `{error}` payload (through the configured logger, if any), and the
thrown value itself is the outcome re-raised to the caller. -/
theorem C2_sync_fast_fail {s : Registry π ε Λ} {h : String} {p : π}
    {bs₁ bs₂ : List (List (Action π ε))} {pre post : List (Action π ε)}
    {a : Action π ε} {e : ε}
    (hbs : getActionsBatch s h = bs₁ ++ (pre ++ a :: post) :: bs₂)
    (h₁ : ∀ b ∈ bs₁, ∀ x ∈ b, x.run p = none)
    (hpre : ∀ x ∈ pre, x.run p = none)
    (ha : a.run p = some e) :
    fireSync s h p =
      { logs := (bs₁.map (fun b => emit s.logger (LogLine.debug (debugMsg h b)))).flatten ++
          (emit s.logger (LogLine.debug (debugMsg h (pre ++ a :: post))) ++
            emit s.logger (LogLine.error ⟨e⟩ (errorMsg (fallbackName a) h)))
        invoked := bs₁.flatten ++ (pre ++ [a])
        outcome := some e } := by
  rw [fireSync, hbs, fireSyncBatches_append_ok _ h₁, fireSyncBatches_cons_fail hpre ha]

/-- C3: asynchronous fire processes batches strictly in ascending order
(the trace is always a concatenation of the first `k` whole batches), and
when a batch contains a failing action the call rejects with one of that
batch's failures while no later batch is ever started. -/
theorem C3_async_fast_fail {s : Registry π ε Λ} {h : String} {p : π}
    {bs₁ bs₂ : List (List (Action π ε))} {b : List (Action π ε)}
    {x : Action π ε} {e0 : ε}
    (hbs : getActionsBatch s h = bs₁ ++ b :: bs₂)
    (h₁ : ∀ b' ∈ bs₁, ∀ y ∈ b', y.run p = none)
    (hx : x ∈ b) (he : x.run p = some e0) :
    (∃ k, (fireAsync s h p).invoked = ((getActionsBatch s h).take k).flatten)
    ∧ ∃ e, e ∈ b.filterMap (fun y => y.run p)
      ∧ (fireAsync s h p).outcome = some e
      ∧ (fireAsync s h p).invoked = bs₁.flatten ++ b := by
  obtain ⟨e, he'⟩ := runBatchAsync_some_of_fail hx he
  refine ⟨fireAsyncBatches_invoked_take _ _ _ _, e, runBatchAsync_mem he', ?_, ?_⟩
  · rw [fireAsync, hbs, fireAsyncBatches_append_ok _ h₁, fireAsyncBatches_cons_fail he']
  · rw [fireAsync, hbs, fireAsyncBatches_append_ok _ h₁, fireAsyncBatches_cons_fail he']

/-- C4 (amended): when an asynchronous batch fails and a logger is
configured, exactly one error line is emitted, in the structured format
`{error}` plus `Hook action '{names}' for '{hookName}' failed` where
`{names}` is the comma-joined list of the diagnostic names of all of the
batch's actions (not just the failing one), and the error is re-raised. -/
theorem C4_async_error_log {s : Registry π ε Λ} {h : String} {p : π}
    {bs₁ bs₂ : List (List (Action π ε))} {b : List (Action π ε)}
    {x : Action π ε} {e0 : ε} {lgv : Λ}
    (hbs : getActionsBatch s h = bs₁ ++ b :: bs₂)
    (h₁ : ∀ b' ∈ bs₁, ∀ y ∈ b', y.run p = none)
    (hx : x ∈ b) (he : x.run p = some e0)
    (hlg : s.logger = some lgv) :
    ∃ e, e ∈ b.filterMap (fun y => y.run p)
      ∧ (fireAsync s h p).outcome = some e
      ∧ (fireAsync s h p).logs =
          bs₁.map (fun b' => (lgv, LogLine.debug (debugMsg h b'))) ++
            [(lgv, LogLine.debug (debugMsg h b)),
              (lgv, LogLine.error ⟨e⟩ (errorMsg (joinedNames b) h))]
      ∧ (((fireAsync s h p).logs.map Prod.snd).countP LogLine.isError) = 1 := by
  obtain ⟨e, he'⟩ := runBatchAsync_some_of_fail hx he
  have hlogs : (fireAsync s h p).logs =
      bs₁.map (fun b' => (lgv, LogLine.debug (debugMsg h b'))) ++
        [(lgv, LogLine.debug (debugMsg h b)),
          (lgv, LogLine.error ⟨e⟩ (errorMsg (joinedNames b) h))] := by
    rw [fireAsync, hbs, fireAsyncBatches_append_ok _ h₁, fireAsyncBatches_cons_fail he', hlg]
    show (bs₁.map (fun b' => emit (some lgv) (LogLine.debug (debugMsg h b')))).flatten ++
        (emit (some lgv) (LogLine.debug (debugMsg h b)) ++
          emit (some lgv) (LogLine.error ⟨e⟩ (errorMsg (joinedNames b) h))) = _
    simp [emit, flatten_map_singleton]
  refine ⟨e, runBatchAsync_mem he', ?_, hlogs, ?_⟩
  · rw [fireAsync, hbs, fireAsyncBatches_append_ok _ h₁, fireAsyncBatches_cons_fail he']
  · rw [hlogs]
    rw [List.map_append, List.countP_append, List.map_map]
    have hz : ((bs₁.map (Prod.snd ∘ fun b' => (lgv, (LogLine.debug (debugMsg h b') : LogLine ε)))).countP
        LogLine.isError) = 0 := by
      rw [List.countP_eq_zero]
      intro line hline
      obtain ⟨b', _, hb'⟩ := List.mem_map.mp hline
      rw [← hb']
      simp [LogLine.isError]
    rw [hz]
    simp [List.countP_cons, LogLine.isError]

/-- C5: `register` always appends the action at the end of the sequence for
its order key (creating the map/sequence as needed), leaves every other
slot untouched, never deduplicates (the same action registered twice is two
entries), and a successful synchronous fire invokes the stored sequences
exactly in their ascending-batch, in-registration order. -/
theorem C5_register_appends {s : Registry π ε Λ} (hWF : WF s) (h : String)
    (a : Action π ε) (o : ℚ) :
    actionsAt (register s h a o) h o = actionsAt s h o ++ [a]
    ∧ (∀ h' o', h' ≠ h ∨ o' ≠ o → actionsAt (register s h a o) h' o' = actionsAt s h' o')
    ∧ actionsAt (register (register s h a o) h a o) h o = actionsAt s h o ++ [a, a]
    ∧ (∀ p : π, (∀ b ∈ getActionsBatch s h, ∀ x ∈ b, x.run p = none) →
        (fireSync s h p).invoked = (getActionsBatch s h).flatten) := by
  refine ⟨actionsAt_register_self hWF h a o,
    fun h' o' hne => actionsAt_register_frame hWF a hne, ?_, ?_⟩
  · rw [actionsAt_register_self (WF_register hWF h a o) h a o,
      actionsAt_register_self hWF h a o]
    simp
  · intro p hok
    rw [fireSync, fireSyncBatches_all_ok hok]

/-- C9: `getActionsBatch` returns the stored arrays themselves.  When the
order key `o` already exists under `h` with array reference `r`, that
reference is an element of the batch previously returned, `register`ing a
further action under `(h, o)` leaves the reference structure untouched and
mutates that one array in place, so the earlier batch now shows the
appended action, while every other array is unchanged. -/
theorem C9_batch_aliasing {s : Registry π ε Λ} (hWF : WF s) {h : String}
    {m : List (ℚ × Nat)} {o : ℚ} {r : Nat} (a : Action π ε)
    (hm : alookup h s.hooks = some m) (hr : alookup o m = some r) :
    r ∈ getActionsBatchRefs s h
    ∧ getActionsBatchRefs (register s h a o) h = getActionsBatchRefs s h
    ∧ deref (register s h a o) r = deref s r ++ [a]
    ∧ (∀ r', r' ≠ r → deref (register s h a o) r' = deref s r') := by
  have hreg := register_hit_eq hm hr a
  refine ⟨?_, ?_, ?_, ?_⟩
  · rw [getActionsBatchRefs, batchEntries, hookEntries_of_some hm]
    exact List.mem_map.mpr ⟨(o, r), (sortEntries_perm m).mem_iff.mpr (mem_of_alookup hr), rfl⟩
  · rw [hreg]
    rfl
  · rw [hreg]
    show (s.heap.set r (s.heap.getD r [] ++ [a])).getD r [] = deref s r ++ [a]
    rw [deref_heap_set_self (ref_lt hWF hm hr)]
    rfl
  · intro r' hne
    rw [hreg]
    show (s.heap.set r (s.heap.getD r [] ++ [a])).getD r' [] = deref s r'
    exact deref_heap_set_ne s hne.symm _

/-- C10: `register` accepts every numeric (rational) order key — including
non-integers such as 3/2 — without validation: registration succeeds (the
action is appended under that key), the key appears among the hook's order
keys, and retrieval still sorts all keys by plain numeric ascending
comparison. -/
theorem C10_numeric_order_keys {s : Registry π ε Λ} (hWF : WF s) (h : String)
    (a : Action π ε) (o : ℚ) :
    actionsAt (register s h a o) h o = actionsAt s h o ++ [a]
    ∧ o ∈ (batchEntries (register s h a o) h).map Prod.fst
    ∧ ((batchEntries (register s h a o) h).map Prod.fst).Pairwise (· < ·) := by
  refine ⟨actionsAt_register_self hWF h a o, ?_,
    sortEntries_strict (hookEntries_keys_nodup (WF_register hWF h a o) h)⟩
  obtain ⟨r, hr⟩ := register_key_present s h a o
  have hmem : (o, r) ∈ batchEntries (register s h a o) h := by
    rw [batchEntries]
    exact (sortEntries_perm _).mem_iff.mpr (mem_of_alookup hr)
  exact List.mem_map.mpr ⟨(o, r), hmem, rfl⟩

/-! ### Concrete fixtures and witnesses -/

theorem sW_WF : WF sW :=
  WF_register (WF_register (WF_register (WF_createBaseHooks (some ())) "h" (okA "A") 1)
    "h" (okA "B") 0) "h" (okA "C") 2

theorem s10_WF : WF s10 :=
  WF_register (WF_register (WF_createBaseHooks (some ())) "h" (okA "A") 1) "h" (okA "B") 2

theorem C1_ordered_batches_witness :
    WF sW
    ∧ (List.Perm (batchEntries sW "h") (hookEntries sW "h")
      ∧ ((batchEntries sW "h").map Prod.fst).Pairwise (· < ·)
      ∧ getActionsBatch sW "h" = (batchEntries sW "h").map (fun e => actionsAt sW "h" e.1)
      ∧ (∃ t, (fireSync sW "h" ()).invoked ++ t = (getActionsBatch sW "h").flatten)
      ∧ (∃ k, (fireAsync sW "h" ()).invoked = ((getActionsBatch sW "h").take k).flatten)) :=
  ⟨sW_WF, C1_ordered_batches sW_WF "h" ()⟩

theorem C2_sync_fast_fail_witness :
    (getActionsBatch sC2 "h" =
      [[okA "A"]] ++ ([okA "B"] ++ failA "bad" "boom" :: []) :: [[okA "Z"]])
    ∧ (failA "bad" "boom").run () = some "boom"
    ∧ fireSync sC2 "h" () =
      { logs := ([[okA "A"]].map
            (fun b => emit sC2.logger (LogLine.debug (debugMsg "h" b)))).flatten ++
          (emit sC2.logger (LogLine.debug (debugMsg "h" ([okA "B"] ++ failA "bad" "boom" :: []))) ++
            emit sC2.logger (LogLine.error ⟨"boom"⟩ (errorMsg (fallbackName (failA "bad" "boom")) "h")))
        invoked := [[okA "A"]].flatten ++ ([okA "B"] ++ [failA "bad" "boom"])
        outcome := some "boom" } :=
  ⟨rfl, rfl, C2_sync_fast_fail rfl (by decide) (by decide) rfl⟩

theorem C3_async_fast_fail_witness :
    (getActionsBatch sC2 "h" = [[okA "A"]] ++ [okA "B", failA "bad" "boom"] :: [[okA "Z"]])
    ∧ (failA "bad" "boom").run () = some "boom"
    ∧ ((∃ k, (fireAsync sC2 "h" ()).invoked = ((getActionsBatch sC2 "h").take k).flatten)
      ∧ ∃ e, e ∈ ([okA "B", failA "bad" "boom"]).filterMap (fun y => y.run ())
        ∧ (fireAsync sC2 "h" ()).outcome = some e
        ∧ (fireAsync sC2 "h" ()).invoked = [[okA "A"]].flatten ++ [okA "B", failA "bad" "boom"]) :=
  ⟨rfl, rfl, C3_async_fast_fail rfl (by decide)
    (List.Mem.tail _ (List.Mem.head _)) rfl⟩

theorem C4_async_error_log_witness :
    (getActionsBatch sC2 "h" = [[okA "A"]] ++ [okA "B", failA "bad" "boom"] :: [[okA "Z"]])
    ∧ sC2.logger = some ()
    ∧ (∃ e, e ∈ ([okA "B", failA "bad" "boom"]).filterMap (fun y => y.run ())
      ∧ (fireAsync sC2 "h" ()).outcome = some e
      ∧ (fireAsync sC2 "h" ()).logs =
          [[okA "A"]].map (fun b' => ((), LogLine.debug (debugMsg "h" b'))) ++
            [((), LogLine.debug (debugMsg "h" [okA "B", failA "bad" "boom"])),
              ((), LogLine.error ⟨e⟩ (errorMsg (joinedNames [okA "B", failA "bad" "boom"]) "h"))]
      ∧ (((fireAsync sC2 "h" ()).logs.map Prod.snd).countP LogLine.isError) = 1) :=
  ⟨rfl, rfl, C4_async_error_log rfl (by decide)
    (List.Mem.tail _ (List.Mem.head _)) rfl rfl⟩

/-- The claim predicts the async error line names only the failing action
(`bad`); on this input the code joins the names of every action of the
failing batch (`g, bad`), so the logged message differs from the predicted
one. -/
theorem C4_async_error_log_counterexample :
    (fireAsync sC4 "h" ()).logs.map Prod.snd =
      [LogLine.debug (debugMsg "h" [okA "g", failA "bad" "boom"]),
        LogLine.error ⟨"boom"⟩ (errorMsg "g, bad" "h")]
    ∧ (∀ line ∈ (fireAsync sC4 "h" ()).logs.map Prod.snd,
        line ≠ LogLine.error ⟨"boom"⟩ (errorMsg "bad" "h")) := by
  refine ⟨rfl, ?_⟩
  intro line hline
  have : (fireAsync sC4 "h" ()).logs.map Prod.snd =
      [LogLine.debug (debugMsg "h" [okA "g", failA "bad" "boom"]),
        LogLine.error ⟨"boom"⟩ (errorMsg "g, bad" "h")] := rfl
  rw [this] at hline
  rcases List.mem_cons.mp hline with rfl | hline
  · intro hcontra
    exact LogLine.noConfusion hcontra
  · rcases List.mem_cons.mp hline with rfl | hline
    · intro hcontra
      injection hcontra with h1 h2
      revert h2
      decide
    · cases hline

theorem C5_register_appends_witness :
    WF sW
    ∧ (actionsAt (register sW "h" (okA "D") 0) "h" 0 = actionsAt sW "h" 0 ++ [okA "D"]
      ∧ (∀ h' o', h' ≠ "h" ∨ o' ≠ 0 →
          actionsAt (register sW "h" (okA "D") 0) h' o' = actionsAt sW h' o')
      ∧ actionsAt (register (register sW "h" (okA "D") 0) "h" (okA "D") 0) "h" 0 =
          actionsAt sW "h" 0 ++ [okA "D", okA "D"]
      ∧ (∀ p : Unit, (∀ b ∈ getActionsBatch sW "h", ∀ x ∈ b, x.run p = none) →
          (fireSync sW "h" p).invoked = (getActionsBatch sW "h").flatten)) :=
  ⟨sW_WF, C5_register_appends sW_WF "h" (okA "D") 0⟩

theorem C9_batch_aliasing_witness :
    WF sW
    ∧ alookup "h" sW.hooks = some [((1 : ℚ), 0), ((0 : ℚ), 1), ((2 : ℚ), 2)]
    ∧ alookup (1 : ℚ) [((1 : ℚ), 0), ((0 : ℚ), 1), ((2 : ℚ), 2)] = some 0
    ∧ ((0 : Nat) ∈ getActionsBatchRefs sW "h"
      ∧ getActionsBatchRefs (register sW "h" (okA "D") 1) "h" = getActionsBatchRefs sW "h"
      ∧ deref (register sW "h" (okA "D") 1) 0 = deref sW 0 ++ [okA "D"]
      ∧ (∀ r', r' ≠ 0 → deref (register sW "h" (okA "D") 1) r' = deref sW r')) :=
  ⟨sW_WF, rfl, rfl, C9_batch_aliasing sW_WF (okA "D") rfl rfl⟩

theorem C10_numeric_order_keys_witness :
    WF s10
    ∧ (actionsAt (register s10 "h" (okA "mid") (3 / 2)) "h" (3 / 2) =
        actionsAt s10 "h" (3 / 2) ++ [okA "mid"]
      ∧ (3 / 2 : ℚ) ∈ (batchEntries (register s10 "h" (okA "mid") (3 / 2)) "h").map Prod.fst
      ∧ ((batchEntries (register s10 "h" (okA "mid") (3 / 2)) "h").map Prod.fst).Pairwise
          (· < ·)) :=
  ⟨s10_WF, C10_numeric_order_keys s10_WF "h" (okA "mid") (3 / 2)⟩

end HookVerif